import Mathlib

/-!
Shallow embedding of `src/linked_list.c`: a singly linked list of
fixed-width unsigned integers with a cached size, plus an external
forward iterator.

Modelling conventions:
* A node chain is a `List Nat` (each node's `data` in order from `head`;
  `next == NULL` is the empty tail). Data values are `unsigned int`; the
  library performs no arithmetic on them, only equality comparison, so
  `Nat` is a faithful carrier.
* `struct linked_list` is the structure `linked_list` below: the chain
  reachable from `head` and the cached `size` field (a `size_t`, carried
  as `Nat`; the library only increments and decrements it).
* A possibly-NULL `struct linked_list *` argument is `Option linked_list`.
* Allocation through the registered `malloc_fptr` may fail; each
  allocating operation takes an explicit `alloc : Bool` oracle for the
  outcome of its (single) allocation: `false` models `malloc_fptr`
  returning `NULL`.
* Undefined behaviour (a NULL-pointer dereference in the C code) is the
  `none` result of an `Option`-valued operation; `some` carries the
  post-call list state together with the C `bool` return value.
* `free_fptr` releases memory and has no bearing on the abstract state,
  so unlinking a node simply drops it from the chain.
-/

set_option autoImplicit false

namespace LinkedListC

/-- `SIZE_MAX`, the failure sentinel of `linked_list_size` and
`linked_list_find` (the C code targets a 64-bit `size_t`). -/
def SIZE_MAX : Nat := 2 ^ 64 - 1

/-- `struct linked_list`: the cached `size` field and the node chain
reachable from `head` (`head = []` models `head == NULL`). -/
structure linked_list where
  head : List Nat
  size : Nat
  deriving DecidableEq, Repr

/-- `struct iterator`: `current_index`, the suffix of the chain starting
at `current_node` (`[]` models `current_node == NULL`), and the cached
`data` copy.  The `ll` back-reference of the C struct is stored but never
read by any operation, so it is omitted from the state. -/
structure iterator where
  current_index : Nat
  current_node : List Nat
  data : Nat
  deriving DecidableEq, Repr

/-- `linked_list_create`: allocates the header and initialises
`head = NULL`, `size = 0`; returns NULL when allocation fails. -/
def linked_list_create (alloc : Bool) : Option linked_list :=
  if alloc then some ⟨[], 0⟩ else none

/-- `linked_list_size`: `SIZE_MAX` for a NULL list, else the cached
`size` field in O(1). -/
def linked_list_size (ll : Option linked_list) : Nat :=
  match ll with
  | none => SIZE_MAX
  | some l => l.size

/-- The `while(cur->next) cur = cur->next; cur->next = node;` walk of
`linked_list_insert_end`, together with the `if(!cur) ll->head = node`
case: links a fresh node holding `data` after the last node. -/
def chain_append (data : Nat) : List Nat → List Nat
  | [] => [data]
  | d :: rest => d :: chain_append data rest

/-- `linked_list_insert_end`: NULL list fails; allocation failure fails
with no mutation; otherwise the new node is linked at the end and `size`
is incremented. -/
def linked_list_insert_end (ll : Option linked_list) (alloc : Bool)
    (data : Nat) : Option linked_list × Bool :=
  match ll with
  | none => (none, false)
  | some l =>
    if alloc then (some ⟨chain_append data l.head, l.size + 1⟩, true)
    else (some l, false)

/-- `linked_list_insert_front`: NULL list fails; allocation failure fails
with no mutation; otherwise the new node's `next` is the old head, the
head becomes the new node, and `size` is incremented. -/
def linked_list_insert_front (ll : Option linked_list) (alloc : Bool)
    (data : Nat) : Option linked_list × Bool :=
  match ll with
  | none => (none, false)
  | some l =>
    if alloc then (some ⟨data :: l.head, l.size + 1⟩, true)
    else (some l, false)

/-- The walk of `linked_list_insert`'s middle branch, started with
`prev` at the head of the given sublist and `index - idx` remaining
steps: `while(cur && cur_idx < index) { prev = cur; cur = cur->next; }`
followed by `new->next = cur; prev->next = new`.  The first argument is
the suffix at `cur` (after `prev`); when the remaining count reaches `0`
the new node is linked before `cur`, and when `cur` runs out first the
loop exits early and the new node is linked after `prev` as the last
node. -/
def chain_insert_walk (data : Nat) : List Nat → Nat → List Nat
  | rest, 0 => data :: rest
  | [], _ + 1 => [data]
  | d :: rest, n + 1 => d :: chain_insert_walk data rest n

/-- `linked_list_insert`: NULL list fails; `index > size` fails with no
mutation; `index == 0` delegates to `linked_list_insert_front` and
`index == size` to `linked_list_insert_end`; otherwise the code walks to
the predecessor, allocates (failure here returns `false` before any
relinking), links the new node and increments `size`.  In the middle
branch `prev` is only assigned inside the walk loop, so with
`head == NULL` the final `prev->next = new` dereferences NULL (`none`);
that branch needs `1 ≤ index < size`, hence is unreachable from any
well-formed list. -/
def linked_list_insert (ll : Option linked_list) (alloc : Bool)
    (index data : Nat) : Option (Option linked_list × Bool) :=
  match ll with
  | none => some (none, false)
  | some l =>
    if index > l.size then some (some l, false)
    else if index = 0 then some (linked_list_insert_front (some l) alloc data)
    else if index = l.size then some (linked_list_insert_end (some l) alloc data)
    else
      if alloc then
        match l.head with
        | [] => none
        | d :: rest =>
          some (some ⟨d :: chain_insert_walk data rest (index - 1), l.size + 1⟩, true)
      else some (some l, false)

/-- The scan of `linked_list_find`: `idx` is the index of the head of
the remaining chain; returns the index of the first node whose data
equals the query, or `none` when the scan falls off the end. -/
def chain_find (data : Nat) : List Nat → Nat → Option Nat
  | [], _ => none
  | d :: rest, idx => if d = data then some idx else chain_find data rest (idx + 1)

/-- `linked_list_find`: `SIZE_MAX` for a NULL list; otherwise a linear
scan from head returning the first matching index, `SIZE_MAX` when the
value is absent. -/
def linked_list_find (ll : Option linked_list) (data : Nat) : Nat :=
  match ll with
  | none => SIZE_MAX
  | some l => (chain_find data l.head 0).getD SIZE_MAX

/-- The walk of `linked_list_remove` for `index > 0`:
`while(cur && idx < index) { prev = cur; cur = cur->next; }` then
`if(!cur) return false;` and relink `prev->next = cur->next`.  Removal
of the node at the given position, `none` when `cur` is NULL after the
walk (no node at that position). -/
def chain_remove : List Nat → Nat → Option (List Nat)
  | [], _ => none
  | _ :: rest, 0 => some rest
  | d :: rest, n + 1 => (chain_remove rest n).map (fun c => d :: c)

/-- `linked_list_remove`: NULL list fails; the bound check rejects only
`index > size` (so `index == size` passes it); for `index == 0` the code
executes `ll->head = cur->next` with `cur = ll->head` and NO NULL check,
so on an empty list it dereferences NULL (`none`); for `index > 0` it
walks to the target, returns `false` without mutation when the target
does not exist, else unlinks it, frees it and decrements `size`. -/
def linked_list_remove (ll : Option linked_list) (index : Nat) :
    Option (Option linked_list × Bool) :=
  match ll with
  | none => some (none, false)
  | some l =>
    if index > l.size then some (some l, false)
    else if index = 0 then
      match l.head with
      | [] => none
      | _ :: rest => some (some ⟨rest, l.size - 1⟩, true)
    else
      match chain_remove l.head index with
      | none => some (some l, false)
      | some chain => some (some ⟨chain, l.size - 1⟩, true)

/-- The walk of `linked_list_create_iterator`:
`while(cur && idx < index) { cur = cur->next; idx++; }`.  Returns the
suffix at the final `cur` and the final `idx` (the number of steps
actually taken). -/
def iter_walk : List Nat → Nat → List Nat × Nat
  | cur, 0 => (cur, 0)
  | [], _ + 1 => ([], 0)
  | _ :: rest, n + 1 =>
    let r := iter_walk rest n
    (r.1, r.2 + 1)

/-- `linked_list_create_iterator`: NULL for a NULL list or
`index > size`; the walk then lands on `cur`, and the defensive
`if(!cur) return NULL` rejects a missing node (in particular
`index == size`); NULL when the iterator allocation fails; otherwise the
iterator holds the final index, the node reached and a copy of its
data. -/
def linked_list_create_iterator (ll : Option linked_list) (alloc : Bool)
    (index : Nat) : Option iterator :=
  match ll with
  | none => none
  | some l =>
    if index > l.size then none
    else
      match (iter_walk l.head index).1 with
      | [] => none
      | d :: rest =>
        if alloc then some ⟨(iter_walk l.head index).2, d :: rest, d⟩
        else none

/-- `linked_list_delete_iterator`: fails on NULL, else frees the
iterator only (the list is untouched). -/
def linked_list_delete_iterator (it : Option iterator) : Bool :=
  match it with
  | none => false
  | some _ => true

/-- `linked_list_iterate`: NULL iterator fails; a NULL `current_node`
fails with no change; otherwise `current_node = current_node->next` is
executed first, and if the new node is NULL the call returns `false`
leaving `current_index` and the cached `data` untouched; else the index
is incremented, the data refreshed, and the call returns `true`. -/
def linked_list_iterate (it : Option iterator) : Option iterator × Bool :=
  match it with
  | none => (none, false)
  | some i =>
    match i.current_node with
    | [] => (some i, false)
    | _ :: next =>
      match next with
      | [] => (some ⟨i.current_index, [], i.data⟩, false)
      | d :: rest => (some ⟨i.current_index + 1, d :: rest, d⟩, true)

/-- Iterating `n` times from a given iterator state, keeping only the
final state (each call's return value is recovered by one more
`linked_list_iterate`). -/
def iterateFrom (it : Option iterator) : Nat → Option iterator
  | 0 => it
  | n + 1 => (linked_list_iterate (iterateFrom it n)).1

/-- Well-formedness of a list: the cached `size` equals the number of
nodes reachable from `head`.  `linked_list_create` establishes it and
every operation preserves it. -/
def wf (l : linked_list) : Prop := l.size = l.head.length

instance (l : linked_list) : Decidable (wf l) := by
  unfold wf; infer_instance

/-- A mutating operation of the library: the three insert variants (each
with its allocation outcome) and remove. -/
inductive Op where
  | insertFront (alloc : Bool) (data : Nat)
  | insertEnd (alloc : Bool) (data : Nat)
  | insertAt (alloc : Bool) (index data : Nat)
  | removeAt (index : Nat)
  deriving DecidableEq, Repr

/-- One operation applied to a (present) list: the post-state and the C
return value, or `none` on a NULL dereference. -/
def step (l : linked_list) : Op → Option (linked_list × Bool)
  | .insertFront alloc data =>
    match linked_list_insert_front (some l) alloc data with
    | (some l', b) => some (l', b)
    | (none, _) => none
  | .insertEnd alloc data =>
    match linked_list_insert_end (some l) alloc data with
    | (some l', b) => some (l', b)
    | (none, _) => none
  | .insertAt alloc index data =>
    match linked_list_insert (some l) alloc index data with
    | some (some l', b) => some (l', b)
    | _ => none
  | .removeAt index =>
    match linked_list_remove (some l) index with
    | some (some l', b) => some (l', b)
    | _ => none

/-- Running a sequence of operations: the final list state together with
the conjunction of all the individual return values (`true` iff every
operation in the sequence succeeded); `none` if any step crashed. -/
def runOps (l : linked_list) : List Op → Option (linked_list × Bool)
  | [] => some (l, true)
  | op :: rest =>
    match step l op with
    | none => none
    | some (l', b) =>
      match runOps l' rest with
      | none => none
      | some (l'', b') => some (l'', b && b')

/-- Whether an operation is one of the three insert variants. -/
def Op.isInsert : Op → Bool
  | .insertFront _ _ => true
  | .insertEnd _ _ => true
  | .insertAt _ _ _ => true
  | .removeAt _ => false

/-! ### Lemmas about the chain walks -/

theorem chain_append_eq (data : Nat) (c : List Nat) :
    chain_append data c = c ++ [data] := by
  induction c with
  | nil => rfl
  | cons d rest ih => simp [chain_append, ih]

theorem chain_insert_walk_eq (data : Nat) (c : List Nat) (k : Nat)
    (h : k ≤ c.length) :
    chain_insert_walk data c k = c.take k ++ data :: c.drop k := by
  induction c generalizing k with
  | nil =>
    have hk : k = 0 := Nat.le_zero.mp (by simpa using h)
    subst hk
    rfl
  | cons d rest ih =>
    cases k with
    | zero => rfl
    | succ n =>
      simp only [chain_insert_walk, List.take_succ_cons, List.drop_succ_cons,
        List.cons_append, List.cons.injEq, true_and]
      exact ih n (by simpa using h)

theorem chain_insert_walk_length (data : Nat) (c : List Nat) (k : Nat) :
    (chain_insert_walk data c k).length = c.length + 1 := by
  induction c generalizing k with
  | nil => cases k <;> rfl
  | cons d rest ih =>
    cases k with
    | zero => rfl
    | succ n => simp [chain_insert_walk, ih n]

theorem chain_remove_eq_none (c : List Nat) (i : Nat) (h : c.length ≤ i) :
    chain_remove c i = none := by
  induction c generalizing i with
  | nil => rfl
  | cons d rest ih =>
    cases i with
    | zero => simp at h
    | succ n => simp [chain_remove, ih n (by simpa using h)]

theorem chain_remove_eq_some (c : List Nat) (i : Nat) (h : i < c.length) :
    chain_remove c i = some (c.take i ++ c.drop (i + 1)) := by
  induction c generalizing i with
  | nil => simp at h
  | cons d rest ih =>
    cases i with
    | zero => rfl
    | succ n =>
      simp [chain_remove, ih n (by simpa using h)]

theorem iter_walk_of_le (c : List Nat) (i : Nat) (h : i ≤ c.length) :
    iter_walk c i = (c.drop i, i) := by
  induction c generalizing i with
  | nil =>
    have hi : i = 0 := Nat.le_zero.mp (by simpa using h)
    subst hi
    rfl
  | cons d rest ih =>
    cases i with
    | zero => rfl
    | succ n => simp [iter_walk, ih n (by simpa using h)]

theorem iter_walk_of_ge (c : List Nat) (i : Nat) (h : c.length ≤ i) :
    iter_walk c i = ([], c.length) := by
  induction c generalizing i with
  | nil => cases i <;> rfl
  | cons d rest ih =>
    cases i with
    | zero => simp at h
    | succ n => simp [iter_walk, ih n (by simpa using h)]

theorem chain_find_eq_none (data : Nat) (c : List Nat) (idx : Nat)
    (h : data ∉ c) :
    chain_find data c idx = none := by
  induction c generalizing idx with
  | nil => rfl
  | cons d rest ih =>
    simp only [List.mem_cons, not_or] at h
    rw [chain_find, if_neg (fun hd => h.1 hd.symm)]
    exact ih (idx + 1) h.2

theorem chain_find_eq_some (data : Nat) (c : List Nat) (idx : Nat)
    (h : data ∈ c) :
    ∃ i, chain_find data c idx = some (idx + i) ∧ c.get? i = some data ∧
      ∀ j < i, c.get? j ≠ some data := by
  induction c generalizing idx with
  | nil => simp at h
  | cons d rest ih =>
    by_cases hd : d = data
    · exact ⟨0, by simp [chain_find, hd], by simp [hd], by simp⟩
    · have hm : data ∈ rest := by
        rcases List.mem_cons.mp h with h1 | h1
        · exact absurd h1.symm hd
        · exact h1
      obtain ⟨i, hfind, hget, hlt⟩ := ih (idx + 1) hm
      refine ⟨i + 1, ?_, by simpa using hget, ?_⟩
      · simp only [chain_find, if_neg hd, hfind]
        congr 1
        omega
      · intro j hj
        cases j with
        | zero => simpa using hd
        | succ m => simpa using hlt m (by omega)

theorem chain_remove_length (c c' : List Nat) (i : Nat)
    (h : chain_remove c i = some c') : c.length = c'.length + 1 := by
  induction c generalizing i c' with
  | nil => simp [chain_remove] at h
  | cons d rest ih =>
    cases i with
    | zero =>
      simp only [chain_remove, Option.some.injEq] at h
      subst h
      rfl
    | succ n =>
      simp only [chain_remove, Option.map_eq_some'] at h
      obtain ⟨c'', hc, rfl⟩ := h
      simp [ih c'' n hc]

/-! ### C1: remove never crashes — refuted by the empty-list case -/

/-- C1 counterexample evaluation: on an empty list (`head == NULL`,
`size == 0`) with index 0, `linked_list_remove` passes the bound check
(`0 > 0` is false) and then executes `ll->head = cur->next` with
`cur == ll->head == NULL` — a NULL dereference (modelled `none`),
instead of the `false` return the claim requires. -/
theorem c1_remove_empty_list_crashes :
    linked_list_remove (some ⟨[], 0⟩) 0 = none := rfl

/-! ### C10: remove at index == size on a non-empty list -/

/-- C10: for every well-formed non-empty list, `linked_list_remove` at
`index == size` passes the bound check, but the predecessor walk runs
off the end, finds no target node (`cur == NULL`) and returns false
before any mutation: the list is unchanged. -/
theorem c10_remove_at_size_noop (l : linked_list) (hwf : wf l)
    (hne : l.head ≠ []) :
    linked_list_remove (some l) l.size = some (some l, false) := by
  have hlen : l.size = l.head.length := hwf
  have hpos : l.size ≠ 0 := by
    intro h0
    exact hne (List.eq_nil_of_length_eq_zero (by omega))
  simp only [linked_list_remove]
  rw [if_neg (lt_irrefl l.size), if_neg hpos,
    chain_remove_eq_none l.head l.size hlen.ge]

theorem c10_remove_at_size_noop_witness :
    linked_list_remove (some ⟨[5], 1⟩) 1 = some (some ⟨[5], 1⟩, false) :=
  c10_remove_at_size_noop ⟨[5], 1⟩ (by decide) (by decide)

/-- Every failing path of `linked_list_insert` with a failed allocation
returns false with the list untouched, whatever the index: the middle
branch checks the allocation before any relinking. -/
theorem insert_alloc_false (ll : Option linked_list) (index data : Nat) :
    linked_list_insert ll false index data = some (ll, false) := by
  cases ll with
  | none => rfl
  | some l =>
    simp only [linked_list_insert]
    rcases Nat.lt_or_ge l.size index with hlt | hge
    · rw [if_pos hlt]
    · rw [if_neg (not_lt.mpr hge)]
      by_cases h0 : index = 0
      · rw [if_pos h0]
        rfl
      · rw [if_neg h0]
        by_cases hsz : index = l.size
        · rw [if_pos hsz]
          rfl
        · rw [if_neg hsz]
          rfl

/-! ### C8: allocation failure leaves no partial mutation -/

/-- C8: when node allocation fails (`alloc = false`), each of the three
insert operations returns false and the list is exactly as before the
call: same size and same node chain.  (In `linked_list_insert`'s middle
branch the allocation check comes before any relinking, so the failure
path mutates nothing.) -/
theorem c8_alloc_failure_no_mutation (ll : Option linked_list)
    (index data : Nat) :
    linked_list_insert_front ll false data = (ll, false) ∧
    linked_list_insert_end ll false data = (ll, false) ∧
    linked_list_insert ll false index data = some (ll, false) := by
  refine ⟨?_, ?_, insert_alloc_false ll index data⟩ <;> cases ll <;> rfl

/-! ### C7: find returns the lowest matching index or SIZE_MAX -/

/-- C7: `linked_list_find` returns the lowest index `i` such that the
node at position `i` holds the queried value; on a NULL list, or when no
node holds the value, it returns `SIZE_MAX`.  The scan only reads the
chain (the embedding of `find` is a pure function of the list), so the
list is unchanged. -/
theorem c7_find_spec (l : linked_list) (v : Nat) :
    linked_list_find none v = SIZE_MAX ∧
    (v ∉ l.head → linked_list_find (some l) v = SIZE_MAX) ∧
    (v ∈ l.head →
      l.head.get? (linked_list_find (some l) v) = some v ∧
      ∀ j < linked_list_find (some l) v, l.head.get? j ≠ some v) := by
  refine ⟨rfl, ?_, ?_⟩
  · intro hv
    simp [linked_list_find, chain_find_eq_none v l.head 0 hv]
  · intro hv
    obtain ⟨i, hfind, hget, hlt⟩ := chain_find_eq_some v l.head 0 hv
    have hval : linked_list_find (some l) v = i := by
      simp [linked_list_find, hfind]
    rw [hval]
    exact ⟨hget, hlt⟩

theorem c7_find_spec_witness :
    ([3, 5] : List Nat).get? (linked_list_find (some ⟨[3, 5], 2⟩) 5) = some 5 :=
  ((c7_find_spec ⟨[3, 5], 2⟩ 5).2.2 (by decide)).1

/-! ### C6: iterator advance -/

/-- C6: `linked_list_iterate` returns true exactly when the iterator is
present and a next node exists; on success it moves to the next node,
increments `current_index` and refreshes the cached data; when it
returns false at the end of the list, `current_index` and the cached
data are left unchanged (the data remains the last element's), and from
a past-end iterator every subsequent call returns false with the state
unchanged. -/
theorem c6_iterate_spec (it : iterator) :
    ((linked_list_iterate (some it)).2 = true ↔ 2 ≤ it.current_node.length) ∧
    (∀ d d' rest, it.current_node = d :: d' :: rest →
      linked_list_iterate (some it) =
        (some ⟨it.current_index + 1, d' :: rest, d'⟩, true)) ∧
    (∀ d, it.current_node = [d] →
      linked_list_iterate (some it) =
        (some ⟨it.current_index, [], it.data⟩, false)) ∧
    (it.current_node = [] → ∀ n,
      linked_list_iterate (iterateFrom (some it) n) = (some it, false)) ∧
    linked_list_iterate none = (none, false) := by
  obtain ⟨idx, node, data⟩ := it
  refine ⟨?_, ?_, ?_, ?_, rfl⟩
  · cases node with
    | nil => simp [linked_list_iterate]
    | cons d next =>
      cases next with
      | nil => simp [linked_list_iterate]
      | cons d' rest => simp [linked_list_iterate]
  · intro d d' rest h
    simp only [iterator.mk.injEq] at h ⊢
    subst h
    rfl
  · intro d h
    simp only at h
    subst h
    rfl
  · intro h n
    simp only at h
    subst h
    induction n with
    | zero => rfl
    | succ m ih =>
      rw [iterateFrom, ih]
      rfl

theorem c6_iterate_spec_witness :
    linked_list_iterate (some ⟨0, [4, 7], 4⟩) = (some ⟨1, [7], 7⟩, true) :=
  (c6_iterate_spec ⟨0, [4, 7], 4⟩).2.1 4 7 [] rfl

/-! ### C5: iterator creation -/

/-- C5: `linked_list_create_iterator` fails (returns NULL) whenever the
list is absent or `index ≥ size` — `index == size` passes the bound
check (`index > size`) but the walk runs off the end and the defensive
`if(!cur)` check rejects it, including index 0 on an empty list; when
`index < size` and the allocation succeeds, the returned iterator has
`current_index = index`, its current node is the node at position
`index`, and its cached data is that node's data value. -/
theorem c5_create_iterator_spec (l : linked_list) (hwf : wf l)
    (index : Nat) (alloc : Bool) :
    linked_list_create_iterator none alloc index = none ∧
    (l.size ≤ index → linked_list_create_iterator (some l) alloc index = none) ∧
    (index < l.size → alloc = true →
      ∃ d rest, l.head.drop index = d :: rest ∧
        linked_list_create_iterator (some l) alloc index =
          some ⟨index, d :: rest, d⟩ ∧
        l.head.get? index = some d) := by
  have hlen : l.size = l.head.length := hwf
  refine ⟨rfl, ?_, ?_⟩
  · intro h
    simp only [linked_list_create_iterator]
    rcases Nat.lt_or_ge l.size index with hlt | hge
    · rw [if_pos hlt]
    · have hidx : index = l.size := le_antisymm hge h
      subst hidx
      rw [if_neg (lt_irrefl _), iter_walk_of_ge l.head l.size hlen.ge]
  · intro hlt halloc
    subst halloc
    have hil : index < l.head.length := by omega
    have hdrop : l.head.drop index = l.head.get ⟨index, hil⟩ :: l.head.drop (index + 1) :=
      List.drop_eq_getElem_cons hil
    refine ⟨l.head.get ⟨index, hil⟩, l.head.drop (index + 1), hdrop, ?_,
      List.get?_eq_get hil⟩
    simp only [linked_list_create_iterator]
    rw [if_neg (not_lt.mpr hlt.le)]
    simp only [iter_walk_of_le l.head index (by omega), hdrop, if_true]

theorem c5_create_iterator_spec_witness :
    ∃ d rest, ([4, 9] : List Nat).drop 1 = d :: rest ∧
      linked_list_create_iterator (some ⟨[4, 9], 2⟩) true 1 =
        some ⟨1, d :: rest, d⟩ ∧
      ([4, 9] : List Nat).get? 1 = some d :=
  (c5_create_iterator_spec ⟨[4, 9], 2⟩ (by decide) 1 true).2.2 (by decide) rfl

/-! ### C4: delegation equivalences of linked_list_insert -/

/-- C4: `linked_list_insert` at index 0 behaves identically to
`linked_list_insert_front` (same return value and same resulting state,
for present and absent lists alike and for either allocation outcome),
and `linked_list_insert` at index `size(list)` behaves identically to
`linked_list_insert_end`.  For an absent list `linked_list_size` is
`SIZE_MAX` and both sides fail with no state. -/
theorem c4_insert_index_equivalence (l : linked_list) (hwf : wf l)
    (alloc : Bool) (v : Nat) :
    (∀ ll : Option linked_list,
      linked_list_insert ll alloc 0 v =
        some (linked_list_insert_front ll alloc v)) ∧
    linked_list_insert (some l) alloc (linked_list_size (some l)) v =
      some (linked_list_insert_end (some l) alloc v) ∧
    linked_list_insert none alloc (linked_list_size none) v =
      some (linked_list_insert_end none alloc v) := by
  have hlen : l.size = l.head.length := hwf
  refine ⟨?_, ?_, rfl⟩
  · intro ll
    cases ll with
    | none => rfl
    | some l' => simp [linked_list_insert]
  · by_cases h0 : l.size = 0
    · have hhead : l.head = [] := List.eq_nil_of_length_eq_zero (by omega)
      cases alloc with
      | false =>
        simp [linked_list_insert, linked_list_size, h0,
          linked_list_insert_front, linked_list_insert_end]
      | true =>
        simp [linked_list_insert, linked_list_size, h0, hhead,
          linked_list_insert_front, linked_list_insert_end, chain_append]
    · simp only [linked_list_insert, linked_list_size]
      rw [if_neg (lt_irrefl _), if_neg h0]
      simp

theorem c4_insert_index_equivalence_witness :
    linked_list_insert (some ⟨[2], 1⟩) true (linked_list_size (some ⟨[2], 1⟩)) 9 =
      some (linked_list_insert_end (some ⟨[2], 1⟩) true 9) :=
  (c4_insert_index_equivalence ⟨[2], 1⟩ (by decide) true 9).2.1

/-! ### C3: full functional specification of linked_list_insert -/

/-- Characterisation of `linked_list_insert` on a present well-formed
list: success exactly for `index ≤ size` with a successful allocation,
in which case the value lands at position `index` and `size` grows by 1;
every other case returns false with the list unchanged. -/
theorem insert_spec_aux (l : linked_list) (hwf : wf l) (index data : Nat)
    (alloc : Bool) :
    linked_list_insert (some l) alloc index data =
      (if index ≤ l.size ∧ alloc = true then
        some (some ⟨l.head.take index ++ data :: l.head.drop index, l.size + 1⟩, true)
      else some (some l, false)) := by
  have hlen : l.size = l.head.length := hwf
  by_cases hle : index ≤ l.size
  · cases alloc with
    | false =>
      rw [if_neg (by simp)]
      exact insert_alloc_false (some l) index data
    | true =>
      rw [if_pos ⟨hle, rfl⟩]
      rcases Nat.eq_zero_or_pos index with h0 | hpos
      · subst h0
        simp [linked_list_insert, linked_list_insert_front]
      · by_cases hsz : index = l.size
        · subst hsz
          simp only [linked_list_insert]
          rw [if_neg (lt_irrefl _), if_neg (by omega)]
          have ht : l.head.take l.size = l.head := by
            rw [hlen]
            exact List.take_length l.head
          have hd : l.head.drop l.size = [] := by
            rw [hlen]
            exact List.drop_length l.head
          simp [linked_list_insert_end, chain_append_eq, ht, hd]
        · have hlt : index < l.size := lt_of_le_of_ne hle hsz
          obtain ⟨d, rest, hhead⟩ : ∃ d rest, l.head = d :: rest := by
            cases hh : l.head with
            | nil =>
              rw [hh] at hlen
              simp at hlen
              omega
            | cons d rest => exact ⟨d, rest, rfl⟩
          simp only [linked_list_insert]
          rw [if_neg (not_lt.mpr hle), if_neg (by omega), if_neg hsz, hhead]
          have hreq : index - 1 ≤ rest.length := by
            have hr : l.head.length = rest.length + 1 := by
              rw [hhead]
              rfl
            omega
          obtain ⟨k, rfl⟩ : ∃ k, index = k + 1 := ⟨index - 1, by omega⟩
          simp [chain_insert_walk_eq data rest k (by omega)]
  · rw [if_neg (fun hc => hle hc.1)]
    simp only [linked_list_insert]
    rw [if_pos (not_le.mp hle)]

/-- C3: `linked_list_insert` succeeds exactly when the list is present,
`index` lies in `[0, size]` and node allocation succeeds; on success the
resulting sequence is the old sequence with the value inserted at
position `index` (elements before and after unchanged) and `size` grows
by exactly 1; otherwise — in particular for `index > size` — it returns
false with the list (and its size) unchanged. -/
theorem c3_insert_spec (l : linked_list) (hwf : wf l) (index data : Nat)
    (alloc : Bool) :
    linked_list_insert none alloc index data = some (none, false) ∧
    linked_list_insert (some l) alloc index data =
      (if index ≤ l.size ∧ alloc = true then
        some (some ⟨l.head.take index ++ data :: l.head.drop index, l.size + 1⟩, true)
      else some (some l, false)) :=
  ⟨rfl, insert_spec_aux l hwf index data alloc⟩

theorem c3_insert_spec_witness :
    linked_list_insert none true 1 2 = some (none, false) :=
  (c3_insert_spec ⟨[1, 3], 2⟩ (by decide) 1 2 true).1

/-! ### The size invariant under operation sequences (C2, C9) -/

/-- Characterisation of `linked_list_remove` on a present well-formed
list: a node at position `index` exists exactly when `index < length`,
and then it is unlinked and `size` decremented; the one crashing input
is index 0 on an empty chain; everything else returns false with the
list unchanged. -/
theorem remove_spec_aux (l : linked_list) (hwf : wf l) (index : Nat) :
    linked_list_remove (some l) index =
      (if index < l.head.length then
        some (some ⟨l.head.take index ++ l.head.drop (index + 1), l.size - 1⟩, true)
      else if index = 0 ∧ l.head = [] then none
      else some (some l, false)) := by
  have hlen : l.size = l.head.length := hwf
  by_cases h0 : index = 0
  · subst h0
    cases hh : l.head with
    | nil =>
      have hs : l.size = 0 := by
        rw [hlen, hh]
        rfl
      rw [if_neg (by simp), if_pos ⟨rfl, rfl⟩]
      simp [linked_list_remove, hs, hh]
    | cons d rest =>
      rw [if_pos (by simp)]
      simp [linked_list_remove, hh]
  · by_cases hlt : index < l.head.length
    · rw [if_pos hlt]
      simp only [linked_list_remove]
      rw [if_neg (by omega), if_neg h0, chain_remove_eq_some l.head index hlt]
    · rw [if_neg hlt, if_neg (fun hc => h0 hc.1)]
      simp only [linked_list_remove]
      by_cases hgt : index > l.size
      · rw [if_pos hgt]
      · rw [if_neg hgt, if_neg h0, chain_remove_eq_none l.head index (by omega)]

/-- Every non-crashing step of the operation machine preserves the size
invariant. -/
theorem step_preserves_wf (l l' : linked_list) (op : Op) (b : Bool)
    (hwf : wf l) (h : step l op = some (l', b)) : wf l' := by
  have hlen : l.size = l.head.length := hwf
  cases op with
  | insertFront alloc data =>
    cases alloc with
    | false =>
      simp [step, linked_list_insert_front] at h
      obtain ⟨h1, h2⟩ := h
      subst h1
      exact hwf
    | true =>
      simp [step, linked_list_insert_front] at h
      obtain ⟨h1, h2⟩ := h
      subst h1
      show (l.size + 1) = _
      simp [hlen]
  | insertEnd alloc data =>
    cases alloc with
    | false =>
      simp [step, linked_list_insert_end] at h
      obtain ⟨h1, h2⟩ := h
      subst h1
      exact hwf
    | true =>
      simp [step, linked_list_insert_end] at h
      obtain ⟨h1, h2⟩ := h
      subst h1
      show (l.size + 1) = _
      simp [chain_append_eq, hlen]
  | insertAt alloc index data =>
    simp only [step] at h
    rw [insert_spec_aux l hwf index data alloc] at h
    by_cases hc : index ≤ l.size ∧ alloc = true
    · rw [if_pos hc] at h
      simp at h
      obtain ⟨h1, h2⟩ := h
      subst h1
      show (l.size + 1) = _
      have hmin : min index l.head.length = index := Nat.min_eq_left (by omega)
      simp [List.length_append, List.length_take, List.length_drop, hmin]
      omega
    · rw [if_neg hc] at h
      simp at h
      obtain ⟨h1, h2⟩ := h
      subst h1
      exact hwf
  | removeAt index =>
    simp only [step] at h
    rw [remove_spec_aux l hwf index] at h
    by_cases hlt : index < l.head.length
    · rw [if_pos hlt] at h
      simp at h
      obtain ⟨h1, h2⟩ := h
      subst h1
      show (l.size - 1) = _
      have hmin : min index l.head.length = index := Nat.min_eq_left (by omega)
      simp [List.length_append, List.length_take, List.length_drop, hmin]
      omega
    · rw [if_neg hlt] at h
      by_cases hz : index = 0 ∧ l.head = []
      · rw [if_pos hz] at h
        simp at h
      · rw [if_neg hz] at h
        simp at h
        obtain ⟨h1, h2⟩ := h
        subst h1
        exact hwf

/-- The size invariant is preserved along any completed operation
sequence. -/
theorem runOps_preserves_wf (ops : List Op) (l l' : linked_list) (b : Bool)
    (hwf : wf l) (h : runOps l ops = some (l', b)) : wf l' := by
  induction ops generalizing l b with
  | nil =>
    simp [runOps] at h
    obtain ⟨h1, h2⟩ := h
    subst h1
    exact hwf
  | cons op rest ih =>
    simp only [runOps] at h
    cases hstep : step l op with
    | none =>
      rw [hstep] at h
      simp at h
    | some p =>
      obtain ⟨l1, b1⟩ := p
      rw [hstep] at h
      dsimp only at h
      cases hrun : runOps l1 rest with
      | none =>
        rw [hrun] at h
        simp at h
      | some q =>
        obtain ⟨l2, b2⟩ := q
        rw [hrun] at h
        dsimp only at h
        simp at h
        obtain ⟨h1, h2⟩ := h
        subst h1
        exact ih l1 b2 (step_preserves_wf l l1 op b1 hwf hstep) hrun

/-- A successful insert step grows the cached size by exactly one. -/
theorem step_insert_size (l l1 : linked_list) (op : Op) (hwf : wf l)
    (hop : op.isInsert = true) (h : step l op = some (l1, true)) :
    l1.size = l.size + 1 := by
  cases op with
  | removeAt index => simp [Op.isInsert] at hop
  | insertFront alloc data =>
    cases alloc with
    | false => simp [step, linked_list_insert_front] at h
    | true =>
      simp [step, linked_list_insert_front] at h
      rw [← h]
  | insertEnd alloc data =>
    cases alloc with
    | false => simp [step, linked_list_insert_end] at h
    | true =>
      simp [step, linked_list_insert_end] at h
      rw [← h]
  | insertAt alloc index data =>
    simp only [step] at h
    rw [insert_spec_aux l hwf index data alloc] at h
    by_cases hc : index ≤ l.size ∧ alloc = true
    · rw [if_pos hc] at h
      simp at h
      rw [← h]
    · rw [if_neg hc] at h
      simp at h

/-- Running a sequence of inserts that all succeed grows the size by the
number of operations. -/
theorem runOps_inserts_size (ops : List Op) (l l' : linked_list)
    (hwf : wf l) (hins : ∀ op ∈ ops, op.isInsert = true)
    (h : runOps l ops = some (l', true)) :
    l'.size = l.size + ops.length := by
  induction ops generalizing l with
  | nil =>
    simp [runOps] at h
    subst h
    simp
  | cons op rest ih =>
    simp only [runOps] at h
    cases hstep : step l op with
    | none =>
      rw [hstep] at h
      simp at h
    | some p =>
      obtain ⟨l1, b1⟩ := p
      rw [hstep] at h
      dsimp only at h
      cases hrun : runOps l1 rest with
      | none =>
        rw [hrun] at h
        simp at h
      | some q =>
        obtain ⟨l2, b2⟩ := q
        rw [hrun] at h
        dsimp only at h
        simp at h
        obtain ⟨h1, hb1, hb2⟩ := h
        subst h1
        subst hb1
        subst hb2
        have hwf1 : wf l1 := step_preserves_wf l l1 op true hwf hstep
        have hs1 : l1.size = l.size + 1 :=
          step_insert_size l l1 op hwf (hins op (by simp)) hstep
        have hrest := ih l1 hwf1 (fun o ho => hins o (by simp [ho])) hrun
        rw [hrest, hs1]
        simp [List.length_cons]
        omega

/-- From any well-formed list, removing at index 0 once per element
succeeds every time and empties the list. -/
theorem runOps_remove_all (head : List Nat) :
    runOps ⟨head, head.length⟩ (List.replicate head.length (Op.removeAt 0)) =
      some (⟨[], 0⟩, true) := by
  induction head with
  | nil => rfl
  | cons d rest ih =>
    show runOps ⟨d :: rest, rest.length + 1⟩
        (List.replicate (rest.length + 1) (Op.removeAt 0)) = some (⟨[], 0⟩, true)
    rw [List.replicate_succ]
    simp only [runOps]
    have hstep : step ⟨d :: rest, rest.length + 1⟩ (Op.removeAt 0) =
        some (⟨rest, rest.length⟩, true) := by
      simp [step, linked_list_remove]
    rw [hstep]
    dsimp only
    rw [ih]
    rfl

/-! ### C2: the cached size always equals the reachable node count -/

/-- C2: starting from a freshly created list, after any sequence of
insert and remove operations that runs to completion (in particular any
sequence of successful ones), the cached size equals the number of nodes
reachable from head, and `size == 0` holds exactly when head is none. -/
theorem c2_size_invariant (ops : List Op) (l : linked_list) (b : Bool)
    (h : runOps ⟨[], 0⟩ ops = some (l, b)) :
    l.size = l.head.length ∧ (l.size = 0 ↔ l.head = []) := by
  have hwf : wf l := runOps_preserves_wf ops ⟨[], 0⟩ l b rfl h
  have hlen : l.size = l.head.length := hwf
  refine ⟨hlen, ?_, ?_⟩
  · intro h0
    exact List.eq_nil_of_length_eq_zero (by omega)
  · intro he
    rw [hlen, he]
    rfl

theorem c2_size_invariant_witness :
    (linked_list.mk [5] 1).size = (linked_list.mk [5] 1).head.length ∧
      ((linked_list.mk [5] 1).size = 0 ↔ (linked_list.mk [5] 1).head = []) :=
  c2_size_invariant [Op.insertEnd true 7, Op.removeAt 0, Op.insertFront true 5]
    ⟨[5], 1⟩ true (by decide)

/-! ### C9: N inserts then N removals at index 0 empty the list -/

/-- C9: starting from an empty list, after any `N` insert operations
that all succeed, performing `N` remove operations at index 0 succeeds
at every step and leaves the final list empty: head is none and the
cached size is 0. -/
theorem c9_round_trip (ops : List Op) (l : linked_list)
    (hins : ∀ op ∈ ops, op.isInsert = true)
    (h : runOps ⟨[], 0⟩ ops = some (l, true)) :
    runOps l (List.replicate ops.length (Op.removeAt 0)) =
      some (⟨[], 0⟩, true) := by
  have hwf : wf l := runOps_preserves_wf ops ⟨[], 0⟩ l true rfl h
  have hlen : l.size = l.head.length := hwf
  have hsize : l.size = ops.length := by
    have hs := runOps_inserts_size ops ⟨[], 0⟩ l rfl hins h
    simpa using hs
  have hlep : ops.length = l.head.length := by omega
  rw [hlep]
  obtain ⟨head, size⟩ := l
  have hsz : size = head.length := hwf
  subst hsz
  exact runOps_remove_all head

theorem c9_round_trip_witness :
    runOps ⟨[8], 1⟩
        (List.replicate ([Op.insertFront true 8] : List Op).length (Op.removeAt 0)) =
      some (⟨[], 0⟩, true) :=
  c9_round_trip [Op.insertFront true 8] ⟨[8], 1⟩ (by decide) (by decide)

end LinkedListC
